import Mathlib

/-!
Verification of the rating-simulation program (`assignments/simulate_ratings.py`).

The script generates a synthetic dataset of product ratings: for every
(person, product) pair it combines a fixed product base score, a fixed person
bias and a normal noise draw into a clamped, half-point-quantized rating,
then summarizes the ratings by person and by product, pivots them into a
person by product matrix and exports them as CSV.

The embedding below models ratings as exact rationals.  The numpy random
stream is modelled as an abstract function from draw index to value: the
script consumes exactly one draw per (person, product) pair, in a fixed
nested-loop order, so the k-th draw of the stream is the noise of the k-th
generated pair.
-/

/-- A rating record: the triple appended to `ratings_data` in the script. -/
structure Record where
  person : String
  product : String
  rating : ℚ
deriving DecidableEq, Repr

/-- The `products` list of the script, in source order. -/
def products : List String :=
  ["Laptop Pro", "Wireless Headphones", "Smart Watch", "Tablet Mini", "Gaming Mouse"]

/-- The `people` list of the script, in source order. -/
def people : List String :=
  ["Alice", "Bob", "Carol", "David", "Emma", "Frank", "Grace", "Henry", "Iris", "Jack"]

/-- The `product_base_scores` dictionary of the script. -/
def product_base_scores : String → ℚ
  | "Laptop Pro" => 4.2
  | "Wireless Headphones" => 3.8
  | "Smart Watch" => 3.5
  | "Tablet Mini" => 3.0
  | "Gaming Mouse" => 4.0
  | _ => 0

/-- The `person_bias` dictionary of the script. -/
def person_bias : String → ℚ
  | "Alice" => 0.8
  | "Bob" => 0.3
  | "Carol" => -0.2
  | "David" => 0.0
  | "Emma" => 0.5
  | "Frank" => -0.5
  | "Grace" => 0.1
  | "Henry" => -0.3
  | "Iris" => 0.4
  | "Jack" => -0.1
  | _ => 0

/-- Round-half-to-even on rationals: the semantics of Python's built-in
`round` (on the exact value), used by the script as `round(rating * 2)`. -/
def roundHalfEven (x : ℚ) : ℤ :=
  let n := ⌊x⌋
  let frac := x - n
  if frac < 1/2 then n
  else if 1/2 < frac then n + 1
  else if 2 ∣ n then n else n + 1

/-- The per-pair rating computation of the generation loop:
`rating = base_score + bias + noise`, then `rating = max(1, min(5, rating))`,
then `rating = round(rating * 2) / 2`. -/
def genRating (base bias noise : ℚ) : ℚ :=
  let rating := base + bias + noise
  let rating := max 1 (min 5 rating)
  (roundHalfEven (rating * 2) : ℚ) / 2

/-- The generation loop: outer loop over `people`, inner loop over
`products`; the pair with person index i and product index j consumes the
(i * |products| + j)-th draw of the numpy random stream `noise`. -/
def generateRatings (noise : ℕ → ℚ) : List Record :=
  people.enum.flatMap fun pi =>
    products.enum.map fun qj =>
      { person := pi.2
        product := qj.2
        rating := genRating (product_base_scores qj.2) (person_bias pi.2)
            (noise (pi.1 * products.length + qj.1)) }

/-- Clamping as the spec words it: values below 1.0 become 1.0, values above
5.0 become 5.0, others are unchanged. -/
def clampSpec (x : ℚ) : ℚ :=
  if x < 1 then 1 else if 5 < x then 5 else x

/-- The rating computation as the spec words it: clamp the raw sum to
[1.0, 5.0], multiply by 2, round half-to-even, divide by 2. -/
def specRating (base bias noise : ℚ) : ℚ :=
  (roundHalfEven (clampSpec (base + bias + noise) * 2) : ℚ) / 2


/-- Arithmetic mean as pandas computes it for a group: sum divided by
count. -/
def meanOf (xs : List ℚ) : ℚ := xs.sum / xs.length

/-- The ratings a given person gave, in collection order (the 'Rating'
column of that person's group). -/
def personRatings (c : List Record) (p : String) : List ℚ :=
  (c.filter fun r => r.person == p).map fun r => r.rating

/-- The ratings a given product received, in collection order. -/
def productRatings (c : List Record) (q : String) : List ℚ :=
  (c.filter fun r => r.product == q).map fun r => r.rating

/-- The tendency label of the per-person report:
`"generous" if avg > 3.5 else "harsh" if avg < 3.0 else "neutral"`. -/
def tendency (avg : ℚ) : String :=
  if avg > 3.5 then "generous" else if avg < 3.0 then "harsh" else "neutral"

/-- The quality label of the per-product report: `"excellent" if avg > 4.0
else "good" if avg > 3.5 else "average" if avg > 3.0 else "poor"`. -/
def quality (avg : ℚ) : String :=
  if avg > 4.0 then "excellent"
  else if avg > 3.5 then "good"
  else if avg > 3.0 then "average"
  else "poor"

/-- Descending order on the mean component: the order of
`sort_values(ascending=False)`. -/
def byDescMean (a b : String × ℚ) : Prop := b.2 ≤ a.2

instance : DecidableRel byDescMean :=
  fun a b => inferInstanceAs (Decidable (b.2 ≤ a.2))

instance : IsTotal (String × ℚ) byDescMean :=
  ⟨fun a b => le_total b.2 a.2⟩

instance : IsTrans (String × ℚ) byDescMean :=
  ⟨fun _ _ _ hab hbc => le_trans hbc hab⟩

/-- `df.groupby('Person')['Rating'].mean().sort_values(ascending=False)`
followed by labelling: the rows of the per-person report, each a
(person, mean, tendency label) triple, in descending order of mean. -/
def personSummary (c : List Record) : List (String × ℚ × String) :=
  (List.insertionSort byDescMean
      (((c.map fun r => r.person).dedup).map fun p =>
        (p, meanOf (personRatings c p)))).map
    fun pm => (pm.1, pm.2, tendency pm.2)

/-- `df.groupby('Product')['Rating'].mean().sort_values(ascending=False)`
followed by labelling: the rows of the per-product report, each a
(product, mean, quality label) triple, in descending order of mean. -/
def productSummary (c : List Record) : List (String × ℚ × String) :=
  (List.insertionSort byDescMean
      (((c.map fun r => r.product).dedup).map fun q =>
        (q, meanOf (productRatings c q)))).map
    fun qm => (qm.1, qm.2, quality qm.2)

/-- The person by product matrix view: row labels, column labels and the
cell lookup. -/
structure PivotTable where
  rows : List String
  cols : List String
  cell : String → String → Option ℚ

/-- The table `df.pivot` builds when it succeeds: one row label per
distinct person, one column label per distinct product, and each cell
holds the rating of its (person, product) pair when the collection has
one, and is empty (NaN in pandas) when the pair is absent. -/
def mkTable (c : List Record) : PivotTable where
  rows := (c.map fun r => r.person).dedup
  cols := (c.map fun r => r.product).dedup
  cell := fun p q =>
    (c.find? fun r => r.person == p && r.product == q).map fun r => r.rating

/-- `df.pivot(index='Person', columns='Product', values='Rating')`: pandas
raises a reshape error exactly when some (index, column) pair occurs more
than once in the frame; otherwise it returns the table, leaving cells of
absent pairs empty. -/
def pivot (c : List Record) : Except String PivotTable :=
  if ((c.map fun r => (r.person, r.product)).Nodup) then Except.ok (mkTable c)
  else Except.error "Index contains duplicate entries, cannot reshape"

/-- Flattening a pivot table back into records: every filled cell, row by
row. -/
def flattenTable (t : PivotTable) : List Record :=
  t.rows.flatMap fun p =>
    t.cols.filterMap fun q => (t.cell p q).map fun v => ⟨p, q, v⟩

/-- Python float repr of a rating (a half-integer between 1 and 5):
whole values print as `k.0`, half values as `k.5`. -/
def ratingStr (x : ℚ) : String :=
  if x.den = 1 then toString x.num ++ ".0" else toString (x - 1/2).num ++ ".5"

/-- The column labels of the DataFrame, the keys of the record
dictionaries. -/
def dfColumns : List String := ["Person", "Product", "Rating"]

/-- One data row of `df.to_csv(..., index=False)`: the three fields of a
record, comma-joined, with no leading index field. -/
def csvRow (r : Record) : String :=
  String.intercalate "," [r.person, r.product, ratingStr r.rating]

/-- The lines of `df.to_csv('product_ratings.csv', index=False)`: the
comma-joined header of the column names, then one row per record in frame
(= generation) order. -/
def toCsvLines (c : List Record) : List String :=
  String.intercalate "," dfColumns :: c.map csvRow

/-- The whole observable output of the program as a function of the two
random sources the script seeds at startup: the numpy stream (consumed by
the generation loop) and the stdlib `random` stream (seeded on line 7 but
never drawn from afterwards). -/
def programOutput (npNoise stdlibNoise : ℕ → ℚ) :
    List Record × List (String × ℚ × String) × List (String × ℚ × String)
      × Except String PivotTable × List String :=
  let ratings := generateRatings npNoise
  (ratings, personSummary ratings, productSummary ratings,
    pivot ratings, toCsvLines ratings)

/-- The first record generated from the all-zero noise stream, used to
instantiate the range invariant. -/
def firstRecord : Record :=
  ⟨"Alice", "Laptop Pro",
    genRating (product_base_scores "Laptop Pro") (person_bias "Alice") 0⟩

/-- A collection in which the pair ("Alice", "Smart Watch") is missing
although "Alice" occurs as a person and "Smart Watch" as a product. -/
def missingPairColl : List Record :=
  [⟨"Alice", "Laptop Pro", 5⟩, ⟨"Bob", "Smart Watch", 3⟩]

/-- A small complete collection (every pair exactly once), used to
instantiate the pivot round trip. -/
def roundTripColl : List Record :=
  [⟨"Alice", "Laptop Pro", 5⟩, ⟨"Alice", "Smart Watch", 4⟩,
   ⟨"Bob", "Laptop Pro", 3⟩, ⟨"Bob", "Smart Watch", 7/2⟩]

/-- A one-record collection used to instantiate the summary theorems. -/
def oneRecordColl : List Record :=
  [⟨"Alice", "Laptop Pro", 4⟩]
/-! ### Helper lemmas -/

theorem roundHalfEven_intCast (z : ℤ) : roundHalfEven (z : ℚ) = z := by
  unfold roundHalfEven
  rw [Int.floor_intCast]
  norm_num

theorem roundHalfEven_ge {x : ℚ} {z : ℤ} (h : (z : ℚ) ≤ x) : z ≤ roundHalfEven x := by
  have hfl : z ≤ ⌊x⌋ := Int.le_floor.mpr h
  unfold roundHalfEven
  dsimp only
  split
  · exact hfl
  · split
    · omega
    · split <;> omega

theorem roundHalfEven_le {x : ℚ} {z : ℤ} (h : x ≤ (z : ℚ)) : roundHalfEven x ≤ z := by
  have hfl : ⌊x⌋ ≤ z := by
    have := Int.floor_le_floor h
    rwa [Int.floor_intCast] at this
  unfold roundHalfEven
  dsimp only
  split
  · exact hfl
  next hlt =>
    have hfrac : (0 : ℚ) < x - ⌊x⌋ := by
      by_contra hc
      push_neg at hc
      have : x - (⌊x⌋ : ℚ) < 1/2 := by linarith
      exact hlt this
    have hx : (⌊x⌋ : ℚ) < x := by linarith
    have : (⌊x⌋ : ℚ) < (z : ℚ) := lt_of_lt_of_le hx h
    have hz : ⌊x⌋ < z := by exact_mod_cast this
    split
    · omega
    · split <;> omega

theorem clamp_eq_clampSpec (x : ℚ) : max 1 (min 5 x) = clampSpec x := by
  unfold clampSpec
  split
  next h => rw [min_eq_right (by linarith : x ≤ 5), max_eq_left (le_of_lt h)]
  next h =>
    split
    next h5 => rw [min_eq_left (le_of_lt h5), max_eq_right (by norm_num : (1:ℚ) ≤ 5)]
    next h5 =>
      rw [min_eq_right (not_lt.mp h5), max_eq_right (not_lt.mp h)]

theorem genRating_bounds (base bias noise : ℚ) :
    1 ≤ genRating base bias noise ∧ genRating base bias noise ≤ 5 ∧
      ∃ k : ℤ, genRating base bias noise = (k : ℚ) / 2 := by
  unfold genRating
  set c := max 1 (min 5 (base + bias + noise)) with hc
  have h1 : (1 : ℚ) ≤ c := le_max_left _ _
  have h5 : c ≤ 5 := max_le (by norm_num) (min_le_left _ _)
  have hge : (2 : ℤ) ≤ roundHalfEven (c * 2) := roundHalfEven_ge (by push_cast; linarith)
  have hle : roundHalfEven (c * 2) ≤ (10 : ℤ) := roundHalfEven_le (by push_cast; linarith)
  have hgeQ : (2 : ℚ) ≤ (roundHalfEven (c * 2) : ℚ) := by exact_mod_cast hge
  have hleQ : ((roundHalfEven (c * 2) : ℚ)) ≤ 10 := by exact_mod_cast hle
  refine ⟨by linarith, by linarith, roundHalfEven (c * 2), rfl⟩

theorem flatMap_congr {α β : Type} {l : List α} {f g : α → List β}
    (h : ∀ a ∈ l, f a = g a) : l.flatMap f = l.flatMap g := by
  induction l with
  | nil => rfl
  | cons a l ih =>
    simp only [List.flatMap_cons]
    rw [h a (List.mem_cons_self a l), ih fun b hb => h b (List.mem_cons_of_mem a hb)]

theorem mem_generateRatings {noise : ℕ → ℚ} {r : Record} (h : r ∈ generateRatings noise) :
    ∃ base bias v : ℚ, r.rating = genRating base bias v := by
  unfold generateRatings at h
  rw [List.mem_flatMap] at h
  obtain ⟨pi, _, hr⟩ := h
  rw [List.mem_map] at hr
  obtain ⟨qj, _, hr⟩ := hr
  exact ⟨_, _, _, congrArg Record.rating hr.symm⟩

/-! ### Claims -/

/-- C1: the generated rating is clamp-then-quantize of base + bias + noise
(as the spec words it), and on the spec's concrete scenarios: base 4.2,
bias 0.8, noise 0.25 gives 5.0, and base 3.0, bias 0.0, noise 0.0 gives
exactly 3.0. -/
theorem rating_computation_correct :
    (∀ base bias noise : ℚ, genRating base bias noise = specRating base bias noise)
      ∧ (∀ noisef : ℕ → ℚ, generateRatings noisef
          = people.enum.flatMap fun pi => products.enum.map fun qj =>
              { person := pi.2
                product := qj.2
                rating := specRating (product_base_scores qj.2) (person_bias pi.2)
                    (noisef (pi.1 * products.length + qj.1)) })
      ∧ clampSpec (4.2 + 0.8 + 0.25) = 5
      ∧ genRating 4.2 0.8 0.25 = 5
      ∧ genRating 3.0 0.0 0.0 = 3 := by
  have hgs : ∀ base bias noise : ℚ,
      genRating base bias noise = specRating base bias noise := by
    intro base bias noise
    unfold genRating specRating
    dsimp only
    rw [clamp_eq_clampSpec]
  refine ⟨hgs, fun noisef => ?_, ?_, ?_, ?_⟩
  · unfold generateRatings
    refine flatMap_congr fun pi hpi => ?_
    refine List.map_congr_left fun qj hqj => ?_
    rw [hgs]
  · unfold clampSpec
    norm_num
  · unfold genRating
    dsimp only
    have hc : max 1 (min 5 ((4.2 : ℚ) + 0.8 + 0.25)) = 5 := by
      rw [max_def, min_def]
      norm_num
    rw [hc, show (5 : ℚ) * 2 = ((10 : ℤ) : ℚ) by norm_num, roundHalfEven_intCast]
    norm_num
  · unfold genRating
    dsimp only
    have hc : max 1 (min 5 ((3.0 : ℚ) + 0.0 + 0.0)) = 3 := by
      rw [max_def, min_def]
      norm_num
    rw [hc, show (3 : ℚ) * 2 = ((6 : ℤ) : ℚ) by norm_num, roundHalfEven_intCast]
    norm_num

/-- C2: every rating record emitted by the generator, for any noise stream,
has a rating in the closed interval [1.0, 5.0] that is an exact multiple
of 0.5. -/
theorem rating_range_and_quantization (noise : ℕ → ℚ) (r : Record)
    (h : r ∈ generateRatings noise) :
    1 ≤ r.rating ∧ r.rating ≤ 5 ∧ ∃ k : ℤ, r.rating = (k : ℚ) / 2 := by
  obtain ⟨base, bias, v, hr⟩ := mem_generateRatings h
  rw [hr]
  exact genRating_bounds base bias v

/-- Witness for C2: the invariant holds at the first generated record of
the all-zero noise stream. -/
theorem rating_range_and_quantization_witness :
    firstRecord ∈ generateRatings (fun _ => 0) ∧
      (1 ≤ firstRecord.rating ∧ firstRecord.rating ≤ 5 ∧
        ∃ k : ℤ, firstRecord.rating = (k : ℚ) / 2) :=
  have hm : firstRecord ∈ generateRatings (fun _ => 0) := List.Mem.head _
  ⟨hm, rating_range_and_quantization (fun _ => 0) firstRecord hm⟩

/-- C4: the generation is deterministic: it depends on nothing but the
first |people| * |products| draws of the seeded noise stream, so two runs
whose streams agree there (in particular two runs from the same fixed seed)
produce identical rating collections, record for record. -/
theorem generation_deterministic (noise1 noise2 : ℕ → ℚ)
    (h : ∀ i < people.length * products.length, noise1 i = noise2 i) :
    generateRatings noise1 = generateRatings noise2 := by
  unfold generateRatings
  refine flatMap_congr fun pi hpi => ?_
  refine List.map_congr_left fun qj hqj => ?_
  have hpil : pi.1 < people.length := by
    have h1 := List.mem_enum_iff_getElem?.mp hpi
    exact (List.getElem?_eq_some.mp h1).1
  have hqjl : qj.1 < products.length := by
    have h1 := List.mem_enum_iff_getElem?.mp hqj
    exact (List.getElem?_eq_some.mp h1).1
  have hlp : people.length = 10 := rfl
  have hlq : products.length = 5 := rfl
  rw [hlp] at hpil
  rw [hlq] at hqjl
  have hidx : pi.1 * products.length + qj.1 < people.length * products.length := by
    rw [hlp, hlq]
    omega
  rw [h _ hidx]

/-- Witness for C4: two distinct noise streams that agree on the first 50
draws generate the same collection. -/
theorem generation_deterministic_witness :
    generateRatings (fun _ => 0)
      = generateRatings (fun i => if i < 50 then 0 else 1) :=
  generation_deterministic (fun _ => 0) (fun i => if i < 50 then 0 else 1)
    fun i hi => by
      have h50 : people.length * products.length = 50 := rfl
      rw [h50] at hi
      show (0 : ℚ) = if i < 50 then 0 else 1
      rw [if_pos hi]

/-- C5: the generated collection carries exactly one record per
(person, product) pair, in person-major, product-minor table order:
its (person, product) projection is the ordered product of the `people`
and `products` tables, it has |people| * |products| = 50 records, and no
(person, product) pair is duplicated. -/
theorem collection_shape (noise : ℕ → ℚ) :
    ((generateRatings noise).map fun r => (r.person, r.product))
        = (people.flatMap fun p => products.map fun q => (p, q))
      ∧ (generateRatings noise).length = people.length * products.length
      ∧ people.length * products.length = 50
      ∧ ((generateRatings noise).map fun r => (r.person, r.product)).Nodup := by
  have hp : ((generateRatings noise).map fun r => (r.person, r.product))
      = people.flatMap fun p => products.map fun q => (p, q) := rfl
  refine ⟨hp, ?_, rfl, ?_⟩
  · have h1 := congrArg List.length hp
    rwa [List.length_map] at h1
  · rw [hp]
    decide

/-- Counterexample to C3 as stated: in `missingPairColl` the pair
("Alice", "Smart Watch") is missing ("Alice" occurs as a person and
"Smart Watch" as a product, but no record rates that pair), yet the
matrix-view construction succeeds instead of failing. -/
theorem pivot_succeeds_on_missing_pair :
    ("Alice" ∈ missingPairColl.map fun r => r.person)
      ∧ ("Smart Watch" ∈ missingPairColl.map fun r => r.product)
      ∧ (∀ r ∈ missingPairColl, ¬(r.person = "Alice" ∧ r.product = "Smart Watch"))
      ∧ pivot missingPairColl = Except.ok (mkTable missingPairColl) := by
  refine ⟨by decide, by decide, by decide, ?_⟩
  unfold pivot
  rw [if_pos (by decide)]

/-- C3 amended: the matrix-view construction fails with the reshape error
exactly when some (person, product) pair is duplicated in the input
collection; a missing pair does not make it fail (its cell is simply
left empty). -/
theorem pivot_error_iff_duplicate (c : List Record) :
    (pivot c = Except.ok (mkTable c)
        ↔ ((c.map fun r => (r.person, r.product)).Nodup))
      ∧ (pivot c = Except.error "Index contains duplicate entries, cannot reshape"
        ↔ ¬ ((c.map fun r => (r.person, r.product)).Nodup)) := by
  unfold pivot
  split
  next h => exact ⟨⟨fun _ => h, fun _ => rfl⟩, ⟨fun hc => by simp at hc, fun hc => absurd h hc⟩⟩
  next h => exact ⟨⟨fun hc => by simp at hc, fun hc => absurd hc h⟩, ⟨fun _ => h, fun _ => rfl⟩⟩

/-- C8: for a collection with exactly one record per (person, product)
pair, the pivot succeeds and flattening the resulting matrix view
reproduces exactly the original set of rating records. -/
theorem pivot_flatten_roundtrip (c : List Record)
    (hnodup : ((c.map fun r => (r.person, r.product)).Nodup))
    (hcomplete : ∀ p ∈ c.map fun r => r.person, ∀ q ∈ c.map fun r => r.product,
      ∃ r ∈ c, r.person = p ∧ r.product = q) :
    pivot c = Except.ok (mkTable c)
      ∧ ∀ r : Record, (r ∈ flattenTable (mkTable c) ↔ r ∈ c) := by
  refine ⟨by unfold pivot; rw [if_pos hnodup], fun r => ?_⟩
  constructor
  · intro hr
    unfold flattenTable at hr
    rw [List.mem_flatMap] at hr
    obtain ⟨p, hp, hr⟩ := hr
    rw [List.mem_filterMap] at hr
    obtain ⟨q, hq, hcell⟩ := hr
    rw [Option.map_eq_some'] at hcell
    obtain ⟨v, hv, hrv⟩ := hcell
    unfold mkTable at hv
    dsimp only at hv
    rw [Option.map_eq_some'] at hv
    obtain ⟨r', hfind, hrat⟩ := hv
    have hmem := List.mem_of_find?_eq_some hfind
    have hpred := List.find?_some hfind
    obtain ⟨a, b, d⟩ := r'
    rw [Bool.and_eq_true, beq_iff_eq, beq_iff_eq] at hpred
    obtain ⟨hp1, hq1⟩ := hpred
    dsimp only at hp1 hq1 hrat
    subst hp1
    subst hq1
    subst hrat
    rw [← hrv]
    exact hmem
  · intro hr
    unfold flattenTable
    rw [List.mem_flatMap]
    refine ⟨r.person, ?_, ?_⟩
    · show r.person ∈ (c.map fun x => x.person).dedup
      exact List.mem_dedup.mpr (List.mem_map_of_mem _ hr)
    · rw [List.mem_filterMap]
      refine ⟨r.product, ?_, ?_⟩
      · show r.product ∈ (c.map fun x => x.product).dedup
        exact List.mem_dedup.mpr (List.mem_map_of_mem _ hr)
      · show ((c.find? fun x => x.person == r.person && x.product == r.product).map
            (fun x => x.rating)).map (fun v => (⟨r.person, r.product, v⟩ : Record)) = some r
        cases hfind : c.find? fun x => x.person == r.person && x.product == r.product with
        | none =>
          rw [List.find?_eq_none] at hfind
          exact absurd
            (by rw [Bool.and_eq_true, beq_iff_eq, beq_iff_eq]; exact ⟨rfl, rfl⟩)
            (hfind r hr)
        | some r' =>
          have hmem := List.mem_of_find?_eq_some hfind
          have hpred := List.find?_some hfind
          rw [Bool.and_eq_true, beq_iff_eq, beq_iff_eq] at hpred
          have heq : r' = r := by
            have hpair : (fun x : Record => (x.person, x.product)) r'
                = (fun x : Record => (x.person, x.product)) r := by
              dsimp only
              rw [hpred.1, hpred.2]
            exact List.inj_on_of_nodup_map hnodup hmem hr hpair
          rw [heq]
          rfl

/-- Witness for C8: the round trip at a concrete 2 by 2 complete
collection, observed at one of its records. -/
theorem pivot_flatten_roundtrip_witness :
    pivot roundTripColl = Except.ok (mkTable roundTripColl)
      ∧ ((⟨"Alice", "Laptop Pro", 5⟩ : Record) ∈ flattenTable (mkTable roundTripColl)
        ↔ (⟨"Alice", "Laptop Pro", 5⟩ : Record) ∈ roundTripColl) :=
  have h := pivot_flatten_roundtrip roundTripColl (by decide)
    (by decide)
  ⟨h.1, h.2 _⟩

/-- C9: the exported artifact is comma-separated, its first line is the
header Person,Product,Rating, and it continues with exactly one row per
rating record in generation order, with no index column. -/
theorem csv_export_correct (c : List Record) :
    (toCsvLines c).length = c.length + 1
      ∧ (toCsvLines c).head? = some "Person,Product,Rating"
      ∧ ∀ i : ℕ, (toCsvLines c).get? (i + 1) = Option.map csvRow (c.get? i) := by
  refine ⟨?_, rfl, fun i => ?_⟩
  · unfold toCsvLines
    rw [List.length_cons, List.length_map]
  · show (c.map csvRow).get? i = Option.map csvRow (c.get? i)
    exact List.get?_map csvRow c i

/-- C10: the program's entire observable output is invariant under the
stdlib random stream: `random.seed` is called but that source is never
drawn from, so any two stdlib streams (hence any two stdlib seeds) give
identical ratings, summaries, matrix and export. -/
theorem stdlib_seed_noninterference (npNoise stdlib1 stdlib2 : ℕ → ℚ) :
    programOutput npNoise stdlib1 = programOutput npNoise stdlib2 := rfl

/-- C6: the per-person report lists each person with the arithmetic mean
of that person's ratings, in descending order of mean, and labels a mean
"generous" exactly when it is strictly above 3.5, "harsh" exactly when
strictly below 3.0 and "neutral" otherwise; in particular 3.6 is
generous, 2.9 harsh and 3.2 neutral. -/
theorem person_summary_correct (c : List Record) (e : String × ℚ × String)
    (he : e ∈ personSummary c) :
    List.Sorted (fun a b : String × ℚ × String => b.2.1 ≤ a.2.1) (personSummary c)
      ∧ e.2.1 = meanOf (personRatings c e.1)
      ∧ e.2.2 = tendency e.2.1
      ∧ ((personSummary c).map fun x => x.1).Perm ((c.map fun r => r.person).dedup)
      ∧ (∀ m : ℚ, (tendency m = "generous" ↔ 3.5 < m)
          ∧ (tendency m = "harsh" ↔ m < 3.0)
          ∧ (tendency m = "neutral" ↔ 3.0 ≤ m ∧ m ≤ 3.5))
      ∧ tendency 3.6 = "generous" ∧ tendency 2.9 = "harsh"
      ∧ tendency 3.2 = "neutral" := by
  have hdec : e.2.1 = meanOf (personRatings c e.1) ∧ e.2.2 = tendency e.2.1 := by
    unfold personSummary at he
    rw [List.mem_map] at he
    obtain ⟨pm, hpm, he⟩ := he
    rw [List.mem_insertionSort, List.mem_map] at hpm
    obtain ⟨p, hp, hpm⟩ := hpm
    rw [← he, ← hpm]
    exact ⟨rfl, rfl⟩
  refine ⟨?_, hdec.1, hdec.2, ?_, ?_, ?_, ?_, ?_⟩
  · unfold personSummary
    exact List.Pairwise.map _ (fun a b h => h)
      (List.sorted_insertionSort byDescMean _)
  · unfold personSummary
    rw [List.map_map]
    have hcomp : ((fun x : String × ℚ × String => x.1)
          ∘ fun pm : String × ℚ => (pm.1, pm.2, tendency pm.2))
        = fun pm : String × ℚ => pm.1 := rfl
    rw [hcomp]
    have hperm := List.perm_insertionSort byDescMean
      (((c.map fun r => r.person).dedup).map fun p => (p, meanOf (personRatings c p)))
    have h2 := hperm.map fun pm : String × ℚ => pm.1
    rw [List.map_map] at h2
    have hcomp2 : ((fun pm : String × ℚ => pm.1)
          ∘ fun p : String => (p, meanOf (personRatings c p))) = id := rfl
    rw [hcomp2, List.map_id] at h2
    exact h2
  · intro m
    unfold tendency
    by_cases h1 : m > 3.5
    · rw [if_pos h1]
      refine ⟨⟨fun _ => h1, fun _ => rfl⟩, ?_, ?_⟩
      · exact ⟨fun hc => absurd hc (by decide), fun hm => absurd hm (by linarith)⟩
      · exact ⟨fun hc => absurd hc (by decide), fun hm => absurd hm.2 (by linarith)⟩
    · rw [if_neg h1]
      by_cases h2 : m < 3.0
      · rw [if_pos h2]
        refine ⟨?_, ⟨fun _ => h2, fun _ => rfl⟩, ?_⟩
        · exact ⟨fun hc => absurd hc (by decide), fun hm => absurd hm h1⟩
        · exact ⟨fun hc => absurd hc (by decide), fun hm => absurd hm.1 (by linarith)⟩
      · rw [if_neg h2]
        refine ⟨?_, ?_, ⟨fun _ => ⟨by linarith [not_lt.mp h2], by linarith [not_lt.mp h1]⟩,
          fun _ => rfl⟩⟩
        · exact ⟨fun hc => absurd hc (by decide), fun hm => absurd hm h1⟩
        · exact ⟨fun hc => absurd hc (by decide), fun hm => absurd hm h2⟩
  · unfold tendency
    rw [if_pos (by norm_num : (3.6 : ℚ) > 3.5)]
  · unfold tendency
    rw [if_neg (by norm_num : ¬ (2.9 : ℚ) > 3.5), if_pos (by norm_num : (2.9 : ℚ) < 3.0)]
  · unfold tendency
    rw [if_neg (by norm_num : ¬ (3.2 : ℚ) > 3.5), if_neg (by norm_num : ¬ (3.2 : ℚ) < 3.0)]

/-- Witness for C6: the per-person report of a one-record collection,
observed at its single row. -/
theorem person_summary_correct_witness :
    List.Sorted (fun a b : String × ℚ × String => b.2.1 ≤ a.2.1)
      (personSummary oneRecordColl) :=
  (person_summary_correct oneRecordColl
    ("Alice", meanOf (personRatings oneRecordColl "Alice"),
      tendency (meanOf (personRatings oneRecordColl "Alice")))
    (List.Mem.head _)).1

/-- C7: the per-product report lists each product with the arithmetic
mean of its ratings, in descending order of mean, and labels a mean
"excellent" exactly when strictly above 4.0, "good" when strictly above
3.5 (and at most 4.0), "average" when strictly above 3.0 (and at most
3.5), and "poor" otherwise. -/
theorem product_summary_correct (c : List Record) (e : String × ℚ × String)
    (he : e ∈ productSummary c) :
    List.Sorted (fun a b : String × ℚ × String => b.2.1 ≤ a.2.1) (productSummary c)
      ∧ e.2.1 = meanOf (productRatings c e.1)
      ∧ e.2.2 = quality e.2.1
      ∧ ((productSummary c).map fun x => x.1).Perm ((c.map fun r => r.product).dedup)
      ∧ (∀ m : ℚ, (quality m = "excellent" ↔ 4.0 < m)
          ∧ (quality m = "good" ↔ 3.5 < m ∧ m ≤ 4.0)
          ∧ (quality m = "average" ↔ 3.0 < m ∧ m ≤ 3.5)
          ∧ (quality m = "poor" ↔ m ≤ 3.0)) := by
  have hdec : e.2.1 = meanOf (productRatings c e.1) ∧ e.2.2 = quality e.2.1 := by
    unfold productSummary at he
    rw [List.mem_map] at he
    obtain ⟨qm, hqm, he⟩ := he
    rw [List.mem_insertionSort, List.mem_map] at hqm
    obtain ⟨q, hq, hqm⟩ := hqm
    rw [← he, ← hqm]
    exact ⟨rfl, rfl⟩
  refine ⟨?_, hdec.1, hdec.2, ?_, ?_⟩
  · unfold productSummary
    exact List.Pairwise.map _ (fun a b h => h)
      (List.sorted_insertionSort byDescMean _)
  · unfold productSummary
    rw [List.map_map]
    have hcomp : ((fun x : String × ℚ × String => x.1)
          ∘ fun qm : String × ℚ => (qm.1, qm.2, quality qm.2))
        = fun qm : String × ℚ => qm.1 := rfl
    rw [hcomp]
    have hperm := List.perm_insertionSort byDescMean
      (((c.map fun r => r.product).dedup).map fun q => (q, meanOf (productRatings c q)))
    have h2 := hperm.map fun qm : String × ℚ => qm.1
    rw [List.map_map] at h2
    have hcomp2 : ((fun qm : String × ℚ => qm.1)
          ∘ fun q : String => (q, meanOf (productRatings c q))) = id := rfl
    rw [hcomp2, List.map_id] at h2
    exact h2
  · intro m
    unfold quality
    by_cases h1 : m > 4.0
    · rw [if_pos h1]
      refine ⟨⟨fun _ => h1, fun _ => rfl⟩, ?_, ?_, ?_⟩
      · exact ⟨fun hc => absurd hc (by decide), fun hm => absurd hm.2 (by linarith)⟩
      · exact ⟨fun hc => absurd hc (by decide), fun hm => absurd hm.2 (by linarith)⟩
      · exact ⟨fun hc => absurd hc (by decide), fun hm => absurd hm (by linarith)⟩
    · rw [if_neg h1]
      by_cases h2 : m > 3.5
      · rw [if_pos h2]
        refine ⟨?_, ⟨fun _ => ⟨h2, not_lt.mp h1⟩, fun _ => rfl⟩, ?_, ?_⟩
        · exact ⟨fun hc => absurd hc (by decide), fun hm => absurd hm h1⟩
        · exact ⟨fun hc => absurd hc (by decide), fun hm => absurd hm.2 (by linarith)⟩
        · exact ⟨fun hc => absurd hc (by decide), fun hm => absurd hm (by linarith)⟩
      · rw [if_neg h2]
        by_cases h3 : m > 3.0
        · rw [if_pos h3]
          refine ⟨?_, ?_, ⟨fun _ => ⟨h3, not_lt.mp h2⟩, fun _ => rfl⟩, ?_⟩
          · exact ⟨fun hc => absurd hc (by decide), fun hm => absurd hm h1⟩
          · exact ⟨fun hc => absurd hc (by decide), fun hm => absurd hm.1 h2⟩
          · exact ⟨fun hc => absurd hc (by decide), fun hm => absurd hm (by linarith)⟩
        · rw [if_neg h3]
          refine ⟨?_, ?_, ?_, ⟨fun _ => not_lt.mp h3, fun _ => rfl⟩⟩
          · exact ⟨fun hc => absurd hc (by decide), fun hm => absurd hm h1⟩
          · exact ⟨fun hc => absurd hc (by decide), fun hm => absurd hm.1 h2⟩
          · exact ⟨fun hc => absurd hc (by decide), fun hm => absurd hm.1 h3⟩

/-- Witness for C7: the per-product report of a one-record collection,
observed at its single row. -/
theorem product_summary_correct_witness :
    List.Sorted (fun a b : String × ℚ × String => b.2.1 ≤ a.2.1)
      (productSummary oneRecordColl) :=
  (product_summary_correct oneRecordColl
    ("Laptop Pro", meanOf (productRatings oneRecordColl "Laptop Pro"),
      quality (meanOf (productRatings oneRecordColl "Laptop Pro")))
    (List.Mem.head _)).1
